import Mathlib

/-!
Verification of the delta-compression codec in
`src/bin/fswww-daemon/processor/comp_decomp.rs`.

Buffers are modelled as `List Nat` of byte values; Rust functions that can
panic (out-of-bounds slice indexing, `unwrap`) are modelled as returning
`Option` (`none` = panic).  All definitions are translated from the Rust
source; the lz4 entropy stage is an external dependency and is modelled
from the spec (section 4.3: size-prefixed lossless block).
-/

namespace CompDecomp

/-- The 6 payload bytes the encoder stores for a dirty pixel pair starting at
byte offset `i` of `curr`: `[curr[i], curr[i+1], curr[i+2], curr[i+4],
curr[i+5], curr[i+6]]` (Rust `to_add.extend_from_slice(&[...])`). -/
def pairPayload (curr : List Nat) (i : Nat) : List Nat :=
  [curr.getD i 0, curr.getD (i+1) 0, curr.getD (i+2) 0,
   curr.getD (i+4) 0, curr.getD (i+5) 0, curr.getD (i+6) 0]

/-- Whether the pixel pair at byte offset `i` is dirty: the Rust inner loop
`for j in 0..3 { if chunk[j] != curr[i+j] || chunk[j+4] != curr[i+j+4] }`
with `chunk = prev[i..i+8]`.  Short-circuiting does not change the boolean
value, so it is written as a plain 3-way disjunction. -/
def pairIsDirty (prev curr : List Nat) (i : Nat) : Bool :=
  decide (prev.getD i 0 ≠ curr.getD i 0 ∨ prev.getD (i+4) 0 ≠ curr.getD (i+4) 0) ||
  decide (prev.getD (i+1) 0 ≠ curr.getD (i+1) 0 ∨ prev.getD (i+5) 0 ≠ curr.getD (i+5) 0) ||
  decide (prev.getD (i+2) 0 ≠ curr.getD (i+2) 0 ∨ prev.getD (i+6) 0 ≠ curr.getD (i+6) 0)

/-- One step of the encoder per 8-byte chunk of `prev`, with the loop state
(`pairsLeft` = remaining chunks of `chunks_exact(8)`, `i`, `k`, `header`,
`to_add`, `vec`) made explicit.  Every control path of the Rust loop body
reads `curr` at an index up to exactly `i+6` before completing (a clean pair
compares `curr[i+6]` at `j = 2`; a dirty pair copies `curr[i+6]` into the
payload) and never beyond, so the body panics exactly when
`curr.length < i + 7`; that is the guard below (`none` = panic).
After the loop, `vec.push(header); vec.extend_from_slice(&to_add)` is the
unconditional final flush. -/
def diff_byte_header_loop (prev curr : List Nat) :
    Nat → Nat → Nat → Nat → List Nat → List Nat → Option (List Nat)
  | 0, _, _, header, to_add, vec => some (vec ++ header :: to_add)
  | pairsLeft + 1, i, k, header, to_add, vec =>
    if i + 7 ≤ curr.length then
      let dirty := pairIsDirty prev curr i
      let to_add2 := if dirty then to_add ++ pairPayload curr i else to_add
      let header2 := if dirty then header ||| (128 >>> (k % 8)) else header
      if k + 1 = 8 then
        diff_byte_header_loop prev curr pairsLeft (i+8) 0 0 [] (vec ++ header2 :: to_add2)
      else
        diff_byte_header_loop prev curr pairsLeft (i+8) (k+1) header2 to_add2 vec
    else none

/-- Rust `fn diff_byte_header(prev: &[u8], curr: &[u8]) -> Vec<u8>`:
the delta-stream encoder.  `chunks_exact(8)` visits `prev.length / 8`
complete chunks (any remainder of `prev` is never inspected). -/
def diff_byte_header (prev curr : List Nat) : Option (List Nat) :=
  diff_byte_header_loop prev curr (prev.length / 8) 0 0 0 [] []

/-- Rust header interpretation: `for j in (0..8).rev()`, pushing the current
`pix_idx` for every set bit, with `pix_idx += 2` on every iteration.  At
iteration `t` (`t = 0..7`) the examined bit is `j = 7 - t` and the pushed
index is `pix_idx + 2*t`. -/
def headerIndices (header pix_idx : Nat) : List Nat :=
  (List.range 8).filterMap fun t =>
    if (header >>> (7 - t)) % 2 = 1 then some (pix_idx + 2 * t) else none

/-- Payload copy for one recorded pair index `idx`, reading 6 payload bytes at
`diff[c..c+6]` and writing them to `buf[idx*4 + j]` / `buf[idx*4 + j + 4]`
for `j in 0..3` (Rust inner copy loop; the reads advance `byte_idx` by 6).
Every control path reads `diff` up to index `c+5` and writes `buf` up to
index `idx*4+6` before completing, and no further, so the Rust loop panics
exactly when one of those is out of range (`none` = panic).  The `set`s are
listed in the Rust write order; all six target distinct offsets. -/
def copyPair (buf diff : List Nat) (idx c : Nat) : Option (List Nat) :=
  if idx * 4 + 7 ≤ buf.length ∧ c + 6 ≤ diff.length then
    some ((((((buf.set (idx*4) (diff.getD c 0)).set
        (idx*4+4) (diff.getD (c+3) 0)).set
        (idx*4+1) (diff.getD (c+1) 0)).set
        (idx*4+5) (diff.getD (c+4) 0)).set
        (idx*4+2) (diff.getD (c+2) 0)).set
        (idx*4+6) (diff.getD (c+5) 0))
  else none

/-- Rust `for idx in &to_change { ... }`: apply `copyPair` for each recorded
index, the payload cursor advancing 6 bytes per pair. -/
def copyPairs (buf diff : List Nat) : List Nat → Nat → Option (List Nat)
  | [], _ => some buf
  | idx :: rest, c =>
    match copyPair buf diff idx c with
    | none => none
    | some buf2 => copyPairs buf2 diff rest (c + 6)

/-- Rust `while byte_idx < diff.len()` loop of `diff_byte_header_copy_onto`.
`byte_idx` grows by at least 1 per iteration, so `diff.length` iterations
always suffice; `fuel` is initialised to `diff.length`, which keeps the
function structurally recursive.  The fuel-exhaustion branch mirrors the
loop condition and is unreachable from `diff_byte_header_copy_onto`. -/
def copy_onto_loop (diff : List Nat) : List Nat → Nat → Nat → Nat → Option (List Nat)
  | buf, 0, byte_idx, _ => if byte_idx < diff.length then none else some buf
  | buf, fuel + 1, byte_idx, pix_idx =>
    if byte_idx < diff.length then
      let header := diff.getD byte_idx 0
      let to_change := headerIndices header pix_idx
      match copyPairs buf diff to_change (byte_idx + 1) with
      | none => none
      | some buf2 =>
          copy_onto_loop diff buf2 fuel (byte_idx + 1 + 6 * to_change.length) (pix_idx + 16)
    else some buf

/-- Rust `fn diff_byte_header_copy_onto(buf: &mut [u8], diff: &[u8])`:
apply a delta stream onto `buf` in place (`none` = panic). -/
def diff_byte_header_copy_onto (buf diff : List Nat) : Option (List Nat) :=
  copy_onto_loop diff buf diff.length 0 0

/-- Little-endian 4-byte encoding of a length (the u32 size prefix of
`lz4_flex`'s size-prepended block format, per spec section 6). -/
def natToLE4 (n : Nat) : List Nat :=
  [n % 256, n / 256 % 256, n / 65536 % 256, n / 16777216 % 256]

/-- Decode the little-endian 4-byte size prefix. -/
def leToNat4 (b : List Nat) : Nat :=
  b.getD 0 0 % 256 + 256 * (b.getD 1 0 % 256) +
  65536 * (b.getD 2 0 % 256) + 16777216 * (b.getD 3 0 % 256)

/-- Modelled from the spec: `lz4_flex::compress_prepend_size` (the entropy
stage is an external crate, absent from `src/`).  Spec section 4.3: a
size-prefixed block produced by a lossless block compressor; any compressor
with the same size-prefix contract is substitutable, so the block coding
itself is modelled as the identity. -/
def compress_prepend_size (b : List Nat) : List Nat :=
  natToLE4 b.length ++ b

/-- Modelled from the spec: `lz4_flex::decompress_size_prepended` (external
crate, absent from `src/`).  Fails on a truncated size prefix or when the
declared length does not match the actual decompressed output
(spec section 4.3). -/
def decompress_size_prepended (b : List Nat) : Except String (List Nat) :=
  if b.length < 4 then Except.error "input too short"
  else
    let n := leToNat4 (b.take 4)
    let payload := b.drop 4
    if payload.length = n then Except.ok payload else Except.error "length mismatch"

/-- Rust `pub fn mixed_comp(prev: &[u8], curr: &[u8]) -> Vec<u8>`. -/
def mixed_comp (prev curr : List Nat) : Option (List Nat) :=
  match diff_byte_header prev curr with
  | none => none
  | some bit_pack => some (compress_prepend_size bit_pack)

/-- Rust `pub fn mixed_decomp(buf: &mut [u8], diff: &[u8])`.  The source
calls `.unwrap()` on the decompression result, so a decompression error is
a panic (`none`), not a returned error. -/
def mixed_decomp (buf diff : List Nat) : Option (List Nat) :=
  match decompress_size_prepended diff with
  | Except.error _ => none
  | Except.ok d => diff_byte_header_copy_onto buf d

/-! ### List helpers -/

theorem getD_set_self {l : List Nat} {i a : Nat} (h : i < l.length) :
    (l.set i a).getD i 0 = a := by
  simp [List.getD_eq_getElem?_getD, List.getElem?_set_self h]

theorem getD_set_ne {l : List Nat} {i j a : Nat} (h : i ≠ j) :
    (l.set i a).getD j 0 = l.getD j 0 := by
  simp [List.getD_eq_getElem?_getD, List.getElem?_set_ne h]

/-! ### Anatomy of a successful copyPair -/

theorem copyPair_anatomy {buf diff B1 : List Nat} {idx c : Nat}
    (h : copyPair buf diff idx c = some B1) :
    idx * 4 + 7 ≤ buf.length ∧ c + 6 ≤ diff.length ∧
    B1.length = buf.length ∧
    (B1.getD (idx*4) 0 = diff.getD c 0 ∧
     B1.getD (idx*4+1) 0 = diff.getD (c+1) 0 ∧
     B1.getD (idx*4+2) 0 = diff.getD (c+2) 0 ∧
     B1.getD (idx*4+4) 0 = diff.getD (c+3) 0 ∧
     B1.getD (idx*4+5) 0 = diff.getD (c+4) 0 ∧
     B1.getD (idx*4+6) 0 = diff.getD (c+5) 0) ∧
    (∀ off, (∀ j, j < 3 → off ≠ idx*4+j ∧ off ≠ idx*4+4+j) →
       B1.getD off 0 = buf.getD off 0) := by
  unfold copyPair at h
  split at h
  case isFalse => cases h
  case isTrue hc =>
    obtain ⟨hbuf, hdiff⟩ := hc
    have hB1 := (Option.some.inj h).symm
    subst hB1
    refine ⟨hbuf, hdiff, by simp, ⟨?_, ?_, ?_, ?_, ?_, ?_⟩, ?_⟩
    · rw [getD_set_ne (by omega), getD_set_ne (by omega), getD_set_ne (by omega),
          getD_set_ne (by omega), getD_set_ne (by omega),
          getD_set_self (by omega)]
    · rw [getD_set_ne (by omega), getD_set_ne (by omega), getD_set_ne (by omega),
          getD_set_self (by simp; omega)]
    · rw [getD_set_ne (by omega),
          getD_set_self (by simp; omega)]
    · rw [getD_set_ne (by omega), getD_set_ne (by omega), getD_set_ne (by omega),
          getD_set_ne (by omega),
          getD_set_self (by simp; omega)]
    · rw [getD_set_ne (by omega), getD_set_ne (by omega),
          getD_set_self (by simp; omega)]
    · rw [getD_set_self (by simp; omega)]
    · intro off hoff
      have n0 : off ≠ idx*4 := (hoff 0 (by omega)).1
      have n1 : off ≠ idx*4+1 := (hoff 1 (by omega)).1
      have n2 : off ≠ idx*4+2 := (hoff 2 (by omega)).1
      have n4 : off ≠ idx*4+4 := (hoff 0 (by omega)).2
      have n5 : off ≠ idx*4+5 := by have := (hoff 1 (by omega)).2; omega
      have n6 : off ≠ idx*4+6 := by have := (hoff 2 (by omega)).2; omega
      rw [getD_set_ne (by omega), getD_set_ne (by omega), getD_set_ne (by omega),
          getD_set_ne (by omega), getD_set_ne (by omega), getD_set_ne (by omega)]

/-- A successful `copyPairs` preserves the buffer length and every byte at an
offset congruent to 3 mod 4 (no write of the inner copy loop ever targets
such an offset). -/
theorem copyPairs_alpha {diff : List Nat} :
    ∀ (idxs : List Nat) (c : Nat) (buf B' : List Nat),
      copyPairs buf diff idxs c = some B' →
      B'.length = buf.length ∧ ∀ off, off % 4 = 3 → B'.getD off 0 = buf.getD off 0 := by
  intro idxs
  induction idxs with
  | nil =>
    intro c buf B' h
    simp [copyPairs] at h
    subst h; exact ⟨rfl, fun _ _ => rfl⟩
  | cons idx rest ih =>
    intro c buf B' h
    simp only [copyPairs] at h
    cases hcp : copyPair buf diff idx c with
    | none => rw [hcp] at h; cases h
    | some buf2 =>
      rw [hcp] at h
      obtain ⟨hl2, ha2⟩ := ih (c+6) buf2 B' h
      obtain ⟨-, -, hl1, -, huntouched⟩ := copyPair_anatomy hcp
      refine ⟨hl2.trans hl1, fun off hoff => ?_⟩
      rw [ha2 off hoff, huntouched off ?_]
      intro j hj
      constructor <;> omega

/-- Exiting the while loop: once `byte_idx` has reached the end of the delta
stream, the loop returns the buffer unchanged, for any fuel. -/
theorem copy_onto_loop_exit {diff buf : List Nat} {byte_idx pix : Nat}
    (h : ¬ byte_idx < diff.length) :
    ∀ fuel, copy_onto_loop diff buf fuel byte_idx pix = some buf := by
  intro fuel
  cases fuel <;> simp [copy_onto_loop, h]

/-- The fuel argument is irrelevant as long as it covers the remaining
bytes of the stream. -/
theorem copy_onto_loop_fuel_eq {diff : List Nat} :
    ∀ (f1 f2 : Nat) (buf : List Nat) (b p : Nat),
      diff.length ≤ b + f1 → diff.length ≤ b + f2 →
      copy_onto_loop diff buf f1 b p = copy_onto_loop diff buf f2 b p := by
  intro f1
  induction f1 with
  | zero =>
    intro f2 buf b p h1 h2
    have hb : ¬ b < diff.length := by omega
    rw [copy_onto_loop_exit hb, copy_onto_loop_exit hb]
  | succ f ih =>
    intro f2 buf b p h1 h2
    by_cases hb : b < diff.length
    · cases f2 with
      | zero => omega
      | succ f2' =>
        simp only [copy_onto_loop, if_pos hb]
        cases hcp : copyPairs buf diff (headerIndices (diff.getD b 0) p) (b+1) with
        | none => rfl
        | some buf2 =>
          exact ih f2' buf2 _ _ (by omega) (by omega)
    · rw [copy_onto_loop_exit hb, copy_onto_loop_exit hb]

/-- The while loop preserves the buffer length and all alpha-channel bytes. -/
theorem copy_onto_loop_alpha {diff : List Nat} :
    ∀ (fuel : Nat) (buf : List Nat) (b p : Nat) (B' : List Nat),
      copy_onto_loop diff buf fuel b p = some B' →
      B'.length = buf.length ∧ ∀ off, off % 4 = 3 → B'.getD off 0 = buf.getD off 0 := by
  intro fuel
  induction fuel with
  | zero =>
    intro buf b p B' h
    simp only [copy_onto_loop] at h
    split at h
    · cases h
    · exact ⟨congrArg List.length (Option.some.inj h).symm,
        fun off _ => congrArg (fun l => List.getD l off 0) (Option.some.inj h).symm⟩
  | succ f ih =>
    intro buf b p B' h
    simp only [copy_onto_loop] at h
    split at h
    · cases hcp : copyPairs buf diff (headerIndices (diff.getD b 0) p) (b+1) with
      | none => rw [hcp] at h; cases h
      | some buf2 =>
        rw [hcp] at h
        obtain ⟨hl2, ha2⟩ := ih buf2 _ _ B' h
        obtain ⟨hl1, ha1⟩ := copyPairs_alpha _ _ buf buf2 hcp
        exact ⟨hl2.trans hl1, fun off hoff => (ha2 off hoff).trans (ha1 off hoff)⟩
    · exact ⟨congrArg List.length (Option.some.inj h).symm,
        fun off _ => congrArg (fun l => List.getD l off 0) (Option.some.inj h).symm⟩

/-- Claim C7: for every buffer and every delta stream on which the apply
operation completes, no byte at an offset congruent to 3 mod 4 (the alpha
byte of each 4-byte pixel) is modified, and the buffer length is
unchanged.  This holds for all delta streams, in particular well-formed
ones. -/
theorem C7_alpha_never_written (buf diff B' : List Nat)
    (h : diff_byte_header_copy_onto buf diff = some B') :
    B'.length = buf.length ∧
    ∀ off, off % 4 = 3 → B'.getD off 0 = buf.getD off 0 :=
  copy_onto_loop_alpha diff.length buf 0 0 B' h

/-- Concrete instantiation of C7: one dirty pair applied onto an 8-byte
buffer leaves the alpha bytes (offsets 3 and 7) at their old values. -/
theorem C7_witness :
    ([10,20,30,9,40,50,60,8] : List Nat).length = ([1,2,3,9,5,6,7,8] : List Nat).length ∧
    ∀ off, off % 4 = 3 →
      ([10,20,30,9,40,50,60,8] : List Nat).getD off 0 =
      ([1,2,3,9,5,6,7,8] : List Nat).getD off 0 :=
  C7_alpha_never_written [1,2,3,9,5,6,7,8] [128,10,20,30,40,50,60] [10,20,30,9,40,50,60,8]
    (by decide)

/-! ### Appending a trailing all-zero header byte -/

theorem headerIndices_zero (p : Nat) : headerIndices 0 p = [] := by
  simp [headerIndices, Nat.zero_shiftRight]

/-- Widening the delta stream on the right does not change a successful
`copyPair` (it reads only below `c + 6 ≤ diff.length`). -/
theorem copyPair_ext {buf diff e x : List Nat} {idx c : Nat}
    (h : copyPair buf diff idx c = some x) :
    copyPair buf (diff ++ e) idx c = some x := by
  obtain ⟨hbuf, hdiff, -⟩ := copyPair_anatomy h
  unfold copyPair at h ⊢
  rw [if_pos ⟨hbuf, hdiff⟩] at h
  rw [if_pos ⟨hbuf, by simp; omega⟩]
  rw [List.getD_append _ _ _ _ (by omega), List.getD_append _ _ _ _ (by omega),
      List.getD_append _ _ _ _ (by omega), List.getD_append _ _ _ _ (by omega),
      List.getD_append _ _ _ _ (by omega), List.getD_append _ _ _ _ (by omega)]
  exact h

theorem copyPairs_ext {diff e : List Nat} :
    ∀ (idxs : List Nat) (c : Nat) (buf x : List Nat),
      copyPairs buf diff idxs c = some x →
      copyPairs buf (diff ++ e) idxs c = some x := by
  intro idxs
  induction idxs with
  | nil => intro c buf x h; simpa [copyPairs] using h
  | cons idx rest ih =>
    intro c buf x h
    simp only [copyPairs] at h ⊢
    cases hcp : copyPair buf diff idx c with
    | none => rw [hcp] at h; cases h
    | some buf2 =>
      rw [hcp] at h
      rw [copyPair_ext hcp]
      exact ih _ _ _ h

/-- A successful `copyPairs` never moves the payload cursor past the end of
the delta stream. -/
theorem copyPairs_bound {diff : List Nat} :
    ∀ (idxs : List Nat) (c : Nat) (buf x : List Nat),
      c ≤ diff.length → copyPairs buf diff idxs c = some x →
      c + 6 * idxs.length ≤ diff.length := by
  intro idxs
  induction idxs with
  | nil => intro c buf x hc _; simpa using hc
  | cons idx rest ih =>
    intro c buf x hc h
    simp only [copyPairs] at h
    cases hcp : copyPair buf diff idx c with
    | none => rw [hcp] at h; cases h
    | some buf2 =>
      rw [hcp] at h
      obtain ⟨-, hdiff, -⟩ := copyPair_anatomy hcp
      have := ih (c+6) buf2 x (by omega) h
      simp only [List.length_cons]
      omega

/-- Appending one all-zero byte to the delta stream does not disturb a
successful run of the while loop: the loop consumes it as an empty header
group and terminates with the same buffer. -/
theorem copy_onto_loop_ext_zero {d : List Nat} :
    ∀ (fuel : Nat) (buf : List Nat) (b p : Nat) (B' : List Nat),
      b ≤ d.length → d.length + 1 ≤ b + fuel →
      copy_onto_loop d buf fuel b p = some B' →
      copy_onto_loop (d ++ [0]) buf fuel b p = some B' := by
  intro fuel
  induction fuel with
  | zero => intro buf b p B' hb hf h; omega
  | succ f ih =>
    intro buf b p B' hb hf h
    by_cases hlt : b < d.length
    · simp only [copy_onto_loop, if_pos hlt] at h
      have hlt' : b < (d ++ [0]).length := by simp; omega
      simp only [copy_onto_loop, if_pos hlt']
      rw [List.getD_append _ _ _ _ hlt]
      cases hcp : copyPairs buf d (headerIndices (d.getD b 0) p) (b+1) with
      | none => rw [hcp] at h; cases h
      | some buf2 =>
        rw [hcp] at h
        rw [copyPairs_ext _ _ _ _ hcp]
        have hbound := copyPairs_bound _ _ _ _ (by omega) hcp
        exact ih buf2 _ _ B' (by omega) (by omega) h
    · have hBeq : B' = buf := by
        rw [copy_onto_loop_exit hlt] at h
        exact (Option.some.inj h).symm
      subst hBeq
      have hb' : b = d.length := by omega
      subst hb'
      have hlt' : d.length < (d ++ [0]).length := by simp
      simp only [copy_onto_loop, if_pos hlt']
      rw [List.getD_append_right _ _ _ _ (le_refl _), Nat.sub_self]
      simp only [List.getD_cons_zero, headerIndices_zero, copyPairs, List.length_nil]
      exact copy_onto_loop_exit (by simp) f

/-- Claim C10: appending a final all-zero header byte to any delta stream
that the apply operation processes successfully (for instance the empty
trailing group the encoder emits when the pair count is a multiple of 8,
whose pair indices lie at or past the end of the buffer) is interpreted
without any payload read or buffer write: the operation still terminates
normally and produces the identical buffer. -/
theorem C10_trailing_zero_header (buf d B' : List Nat)
    (h : diff_byte_header_copy_onto buf d = some B') :
    diff_byte_header_copy_onto buf (d ++ [0]) = some B' := by
  unfold diff_byte_header_copy_onto at h ⊢
  have h' : copy_onto_loop d buf (d.length + 1) 0 0 = some B' := by
    rw [copy_onto_loop_fuel_eq (d.length + 1) d.length buf 0 0 (by omega) (by omega)]
    exact h
  have := copy_onto_loop_ext_zero (d.length + 1) buf 0 0 B' (by omega) (by omega) h'
  simpa using this

/-- Concrete instantiation of C10: a one-group delta applied to an 8-byte
buffer (pair count 1), then the same delta with a trailing all-zero header
byte covering pairs past the end of the buffer: same result. -/
theorem C10_witness :
    diff_byte_header_copy_onto [9,9,9,9,9,9,9,9] [128,1,2,3,4,5,6] =
      some [1,2,3,9,4,5,6,9] ∧
    diff_byte_header_copy_onto [9,9,9,9,9,9,9,9] ([128,1,2,3,4,5,6] ++ [0]) =
      some [1,2,3,9,4,5,6,9] :=
  ⟨by decide, C10_trailing_zero_header _ _ _ (by decide)⟩

/-! ### Encoder normalization -/

/-- The stream the encoder loop still has to emit from state
`(m, i, k, header, to_add)`: same recursion as `diff_byte_header_loop`, but
producing the emitted bytes directly instead of accumulating them in
`vec`. -/
def encodeRest (prev curr : List Nat) : Nat → Nat → Nat → Nat → List Nat → List Nat
  | 0, _, _, header, to_add => header :: to_add
  | pairsLeft + 1, i, k, header, to_add =>
    let dirty := pairIsDirty prev curr i
    let to_add2 := if dirty then to_add ++ pairPayload curr i else to_add
    let header2 := if dirty then header ||| (128 >>> (k % 8)) else header
    if k + 1 = 8 then
      (header2 :: to_add2) ++ encodeRest prev curr pairsLeft (i+8) 0 0 []
    else
      encodeRest prev curr pairsLeft (i+8) (k+1) header2 to_add2

/-- As long as `curr` covers all chunks still to be processed, the encoder
loop succeeds and emits `vec` followed by `encodeRest` of its state. -/
theorem diff_byte_header_loop_eq {prev curr : List Nat} :
    ∀ (m i k header : Nat) (to_add vec : List Nat),
      i + 8 * m ≤ curr.length →
      diff_byte_header_loop prev curr m i k header to_add vec =
        some (vec ++ encodeRest prev curr m i k header to_add) := by
  intro m
  induction m with
  | zero => intro i k header to_add vec _; simp [diff_byte_header_loop, encodeRest]
  | succ n ih =>
    intro i k header to_add vec hm
    have hguard : i + 7 ≤ curr.length := by omega
    simp only [diff_byte_header_loop, encodeRest, if_pos hguard]
    by_cases hk : k + 1 = 8
    · rw [if_pos hk, if_pos hk, ih _ _ _ _ _ (by omega)]
      simp
    · rw [if_neg hk, if_neg hk, ih _ _ _ _ _ (by omega)]

/-- Number of dirty pairs among the `m` chunks starting at byte offset `i`. -/
def dcFrom (prev curr : List Nat) (i m : Nat) : Nat :=
  ((List.range m).filter fun r => pairIsDirty prev curr (i + 8*r)).length

theorem dcFrom_zero (prev curr : List Nat) (i : Nat) : dcFrom prev curr i 0 = 0 := rfl

theorem dcFrom_succ (prev curr : List Nat) (i m : Nat) :
    dcFrom prev curr i (m+1) =
      (if pairIsDirty prev curr i then 1 else 0) + dcFrom prev curr (i+8) m := by
  unfold dcFrom
  rw [List.range_succ_eq_map, List.filter_cons]
  have hmap : ((List.range m).map Nat.succ).filter (fun r => pairIsDirty prev curr (i + 8*r)) =
      ((List.range m).filter fun r => pairIsDirty prev curr ((i+8) + 8*r)).map Nat.succ := by
    rw [List.filter_map]
    congr 1
    apply List.filter_congr
    intro x _
    simp only [Function.comp_apply]
    have harg : i + 8 * Nat.succ x = (i + 8) + 8 * x := by omega
    rw [harg]
  simp only [Nat.mul_zero, Nat.add_zero, hmap, List.length_map]
  by_cases hd : pairIsDirty prev curr i = true
  · rw [if_pos hd, if_pos hd, List.length_cons, List.length_map]
    omega
  · rw [if_neg hd, if_neg hd, List.length_map]
    omega

/-- Length of the emitted stream: one header byte per completed group plus
one for the final flush, plus six payload bytes per dirty pair. -/
theorem encodeRest_length {prev curr : List Nat} :
    ∀ (m i k header : Nat) (to_add : List Nat), k < 8 →
      (encodeRest prev curr m i k header to_add).length =
        1 + to_add.length + (k + m) / 8 + 6 * dcFrom prev curr i m := by
  intro m
  induction m with
  | zero =>
    intro i k header to_add hk
    simp [encodeRest, dcFrom_zero]
    omega
  | succ n ih =>
    intro i k header to_add hk
    rw [dcFrom_succ]
    simp only [encodeRest]
    have hpp : (pairPayload curr i).length = 6 := rfl
    have hnil : ([] : List Nat).length = 0 := rfl
    by_cases hd : pairIsDirty prev curr i = true
    · rw [if_pos hd, if_pos hd, if_pos hd]
      by_cases hk8 : k + 1 = 8
      · rw [if_pos hk8, List.length_append, List.length_cons, List.length_append,
            ih _ 0 _ _ (by omega)]
        omega
      · rw [if_neg hk8, ih _ (k+1) _ _ (by omega), List.length_append]
        omega
    · rw [if_neg hd, if_neg hd, if_neg hd]
      by_cases hk8 : k + 1 = 8
      · rw [if_pos hk8, List.length_append, List.length_cons,
            ih _ 0 _ _ (by omega)]
        omega
      · rw [if_neg hk8, ih _ (k+1) _ _ (by omega)]
        omega

theorem pairIsDirty_self (P : List Nat) (i : Nat) : pairIsDirty P P i = false := by
  simp [pairIsDirty]

/-- With equal buffers every pair is clean: the emitted stream is all
zero header bytes, one per (including partial or empty) group. -/
theorem encodeRest_self (P : List Nat) :
    ∀ (m i k : Nat), k < 8 →
      encodeRest P P m i k 0 [] = List.replicate ((k + m) / 8 + 1) 0 := by
  intro m
  induction m with
  | zero =>
    intro i k hk
    have h0 : (k + 0) / 8 + 1 = 1 := by omega
    rw [h0]
    simp [encodeRest]
  | succ n ih =>
    intro i k hk
    simp only [encodeRest]
    have hd : ¬ (pairIsDirty P P i = true) := by simp [pairIsDirty_self]
    rw [if_neg hd, if_neg hd]
    by_cases hk8 : k + 1 = 8
    · rw [if_pos hk8, ih _ 0 (by omega)]
      have h1 : (k + (n+1)) / 8 + 1 = (0 + n) / 8 + 1 + 1 := by omega
      rw [h1]
      simp [List.replicate_succ]
    · rw [if_neg hk8, ih _ (k+1) (by omega)]
      have h1 : (k + 1 + n) / 8 = (k + (n+1)) / 8 := by omega
      rw [h1]

/-- Dirty pairs of a whole frame pair (pair count = `prev.length / 8`,
the number of complete chunks `chunks_exact(8)` visits). -/
def dirtyPairCount (prev curr : List Nat) : Nat :=
  dcFrom prev curr 0 (prev.length / 8)

/-- Claim C2, amended: for equal-length pair-aligned buffers the encoder
succeeds, and its output length is exactly `(pair_count / 8 + 1)` header
bytes — one per completed group plus one unconditional final flush, i.e.
`floor`, not `ceil`, plus one — plus 6 payload bytes per dirty pair.  In
particular for `P = C` the output is exactly `pair_count / 8 + 1` zero
bytes (headers only, no payload), one more than `ceil(pair_count/8)`
whenever the pair count is divisible by 8. -/
theorem C2_stream_length (P C : List Nat)
    (h1 : P.length = C.length) (h2 : P.length % 8 = 0) :
    ∃ out, diff_byte_header P C = some out ∧
      out.length = (P.length / 8 / 8 + 1) + 6 * dirtyPairCount P C ∧
      (P = C → out = List.replicate (P.length / 8 / 8 + 1) 0) := by
  unfold diff_byte_header
  rw [diff_byte_header_loop_eq _ _ _ _ _ _ (by omega)]
  refine ⟨_, rfl, ?_, ?_⟩
  · rw [List.nil_append, encodeRest_length _ _ _ _ _ (by omega)]
    unfold dirtyPairCount
    simp only [List.length_nil]
    omega
  · intro hPC
    subst hPC
    rw [List.nil_append, encodeRest_self _ _ _ _ (by omega)]
    have : (0 + P.length / 8) / 8 + 1 = P.length / 8 / 8 + 1 := by omega
    rw [this]

/-- Concrete instantiation of C2 (amended): 16 zero bytes = 2 pixel pairs,
equal buffers. -/
theorem C2_witness :
    (List.replicate 16 (0:Nat)).length = (List.replicate 16 (0:Nat)).length ∧
    (List.replicate 16 (0:Nat)).length % 8 = 0 ∧
    ∃ out, diff_byte_header (List.replicate 16 0) (List.replicate 16 0) = some out ∧
      out.length = ((List.replicate 16 (0:Nat)).length / 8 / 8 + 1) +
        6 * dirtyPairCount (List.replicate 16 0) (List.replicate 16 0) ∧
      (List.replicate 16 (0:Nat) = List.replicate 16 0 →
        out = List.replicate ((List.replicate 16 (0:Nat)).length / 8 / 8 + 1) 0) :=
  ⟨rfl, by decide, C2_stream_length _ _ rfl (by decide)⟩

/-! ### The encoder ignores everything beyond the complete chunks -/

theorem getD_take {l : List Nat} {t p : Nat} (h : p < t) :
    (l.take t).getD p 0 = l.getD p 0 := by
  simp [List.getD_eq_getElem?_getD, List.getElem?_take, h]

theorem pairIsDirty_take (prev curr : List Nat) (t i : Nat) (h : i + 7 ≤ t) :
    pairIsDirty (prev.take t) curr i = pairIsDirty prev curr i := by
  unfold pairIsDirty
  rw [getD_take (by omega), getD_take (by omega), getD_take (by omega),
      getD_take (by omega), getD_take (by omega), getD_take (by omega)]

theorem diff_byte_header_loop_take {prev curr : List Nat} :
    ∀ (m i k header : Nat) (to_add vec : List Nat),
      i + 8 * m ≤ 8 * (prev.length / 8) →
      diff_byte_header_loop (prev.take (8 * (prev.length / 8))) curr m i k header to_add vec =
        diff_byte_header_loop prev curr m i k header to_add vec := by
  intro m
  induction m with
  | zero => intro i k header to_add vec _; rfl
  | succ n ih =>
    intro i k header to_add vec hm
    simp only [diff_byte_header_loop]
    rw [pairIsDirty_take _ _ _ _ (by omega)]
    by_cases hg : i + 7 ≤ curr.length
    · rw [if_pos hg, if_pos hg]
      by_cases hk : k + 1 = 8
      · rw [if_pos hk, if_pos hk, ih _ _ _ _ _ (by omega)]
      · rw [if_neg hk, if_neg hk, ih _ _ _ _ _ (by omega)]
    · rw [if_neg hg, if_neg hg]

/-- Claim C5, amended: the encoder has no error channel and performs no
geometry validation.  Whenever `curr` covers the complete 8-byte chunks of
`prev` it returns normally, and its output only depends on those complete
chunks: any remainder of `prev` (and any excess of `curr`) is silently
ignored. -/
theorem C5_no_geometry_validation (prev curr : List Nat)
    (h : 8 * (prev.length / 8) ≤ curr.length) :
    ∃ out, diff_byte_header prev curr = some out ∧
      diff_byte_header (prev.take (8 * (prev.length / 8))) curr = some out := by
  unfold diff_byte_header
  have hl : (prev.take (8 * (prev.length / 8))).length / 8 = prev.length / 8 := by
    simp [List.length_take]
    omega
  rw [hl, diff_byte_header_loop_take _ _ _ _ _ _ (by omega),
      diff_byte_header_loop_eq _ _ _ _ _ _ (by omega)]
  exact ⟨_, rfl, rfl⟩

/-- Concrete instantiation of C5 (amended): a 9-byte buffer (not
pair-aligned) is silently truncated to its single complete pair. -/
theorem C5_witness :
    8 * ((List.replicate 9 (1:Nat)).length / 8) ≤ (List.replicate 9 (1:Nat)).length ∧
    ∃ out, diff_byte_header (List.replicate 9 1) (List.replicate 9 1) = some out ∧
      diff_byte_header ((List.replicate 9 (1:Nat)).take
          (8 * ((List.replicate 9 (1:Nat)).length / 8))) (List.replicate 9 1) = some out :=
  ⟨by decide, C5_no_geometry_validation _ _ (by decide)⟩

/-! ### The encoder's partial-group state in closed form -/

/-- The header byte after the first `k` pairs of the group starting at pair
index `s` have been processed (mirrors the `header` accumulator). -/
def accHeader (prev curr : List Nat) (s : Nat) : Nat → Nat
  | 0 => 0
  | t + 1 =>
    if pairIsDirty prev curr (8*(s+t))
    then accHeader prev curr s t ||| (128 >>> (t % 8))
    else accHeader prev curr s t

/-- The payload accumulated after the first `k` pairs of the group starting
at pair index `s` (mirrors the `to_add` accumulator). -/
def accPayload (prev curr : List Nat) (s : Nat) : Nat → List Nat
  | 0 => []
  | t + 1 =>
    if pairIsDirty prev curr (8*(s+t))
    then accPayload prev curr s t ++ pairPayload curr (8*(s+t))
    else accPayload prev curr s t

/-- The pixel indices (2 per pair) the decoder will record for the group
starting at pair `s` whose first `k` pairs have been encoded: ascending, one
entry `2*s + 2*t` per dirty pair `s + t`. -/
def dirtyIdx (prev curr : List Nat) (s k : Nat) : List Nat :=
  ((List.range k).filter fun t => pairIsDirty prev curr (8*(s+t))).map fun t => 2*s + 2*t

theorem accHeader_testBit (prev curr : List Nat) (s : Nat) :
    ∀ k, k ≤ 8 → ∀ j, ((accHeader prev curr s k).testBit j = true ↔
      (7 - j < k ∧ j ≤ 7 ∧ pairIsDirty prev curr (8*(s+(7-j))) = true)) := by
  intro k
  induction k with
  | zero =>
    intro _ j
    simp [accHeader, Nat.zero_testBit]
  | succ k ih =>
    intro hk8 j
    simp only [accHeader]
    have h128 : (128 : Nat) >>> (k % 8) = 2 ^ (7 - k) := by
      have hmod : k % 8 = k := Nat.mod_eq_of_lt (by omega)
      rw [hmod, Nat.shiftRight_eq_div_pow]
      have h7 : (128 : Nat) = 2 ^ 7 := by norm_num
      rw [h7, Nat.pow_div (by omega) (by omega)]
    by_cases hd : pairIsDirty prev curr (8*(s+k)) = true
    · rw [if_pos hd, h128]
      rw [Nat.testBit_or, Bool.or_eq_true, ih (by omega) j, Nat.testBit_two_pow]
      constructor
      · rintro (⟨ha, hb, hc⟩ | hj)
        · exact ⟨by omega, hb, hc⟩
        · have hj' : 7 - k = j := of_decide_eq_true hj
          have harg : s + (7 - j) = s + k := by omega
          rw [harg]
          exact ⟨by omega, by omega, hd⟩
      · rintro ⟨ha, hb, hc⟩
        by_cases hjk : 7 - j < k
        · exact Or.inl ⟨hjk, hb, hc⟩
        · refine Or.inr (decide_eq_true ?_)
          omega
    · rw [if_neg hd, ih (by omega) j]
      constructor
      · rintro ⟨ha, hb, hc⟩
        exact ⟨by omega, hb, hc⟩
      · rintro ⟨ha, hb, hc⟩
        refine ⟨?_, hb, hc⟩
        by_cases hjk : 7 - j < k
        · exact hjk
        · exfalso
          have hj7 : 7 - j = k := by omega
          rw [show s + (7 - j) = s + k from by omega] at hc
          exact hd hc

theorem filterMap_ite_eq_map_filter {P : Nat → Bool} {g : Nat → Nat} :
    ∀ l : List Nat,
      (l.filterMap fun t => if P t = true then some (g t) else none) =
        (l.filter P).map g := by
  intro l
  induction l with
  | nil => rfl
  | cons a l ih =>
    by_cases h : P a = true
    · simp [List.filterMap_cons, List.filter_cons, h, ih]
    · simp [List.filterMap_cons, List.filter_cons, h, ih]

theorem filterMap_range_restrict {P : Nat → Bool} {g : Nat → Nat} :
    ∀ (d k : Nat),
      ((List.range (k + d)).filterMap fun t =>
          if t < k ∧ P t = true then some (g t) else none) =
        ((List.range k).filter P).map g := by
  intro d
  induction d with
  | zero =>
    intro k
    rw [← filterMap_ite_eq_map_filter (List.range k)]
    apply List.filterMap_congr
    intro x hx
    have hxk : x < k := List.mem_range.mp hx
    by_cases hP : P x = true
    · rw [if_pos ⟨hxk, hP⟩, if_pos hP]
    · rw [if_neg (by tauto), if_neg hP]
  | succ d ih =>
    intro k
    have hkd : k + (d + 1) = (k + d) + 1 := by omega
    rw [hkd, List.range_succ, List.filterMap_append, ih k]
    have htail : ([k + d].filterMap fun t =>
        if t < k ∧ P t = true then some (g t) else none) = [] := by
      simp only [List.filterMap]
      rw [if_neg (by omega)]
    rw [htail, List.append_nil]

/-- The decoder's interpretation of a partial-group header byte is exactly
the ascending list of pixel indices of the dirty pairs. -/
theorem headerIndices_accHeader (prev curr : List Nat) (s k : Nat) (hk : k ≤ 8) :
    headerIndices (accHeader prev curr s k) (2*s) = dirtyIdx prev curr s k := by
  unfold headerIndices dirtyIdx
  have hcongr : ∀ t ∈ List.range 8,
      (if ((accHeader prev curr s k) >>> (7-t)) % 2 = 1
       then some (2*s + 2*t) else none) =
      (if (t < k ∧ (fun t => pairIsDirty prev curr (8*(s+t))) t = true)
       then some ((fun t => 2*s + 2*t) t) else none) := by
    intro t ht
    have ht8 : t < 8 := List.mem_range.mp ht
    have h1 : ((accHeader prev curr s k).testBit (7-t) = true) ↔
        (t < k ∧ pairIsDirty prev curr (8*(s+t)) = true) := by
      rw [accHeader_testBit prev curr s k hk (7-t)]
      have heq : 7 - (7 - t) = t := by omega
      rw [heq]
      constructor
      · rintro ⟨a, -, c⟩; exact ⟨by omega, c⟩
      · rintro ⟨a, c⟩; exact ⟨by omega, by omega, c⟩
    have h2 : (((accHeader prev curr s k) >>> (7-t)) % 2 = 1) ↔
        (t < k ∧ pairIsDirty prev curr (8*(s+t)) = true) := by
      rw [← h1, Nat.testBit_to_div_mod, Nat.shiftRight_eq_div_pow]
      simp
    exact if_congr h2 rfl rfl
  rw [List.filterMap_congr hcongr]
  have h8 : (8 : Nat) = k + (8 - k) := by omega
  rw [h8, filterMap_range_restrict (8 - k) k]

theorem dirtyIdx_succ (prev curr : List Nat) (s k : Nat) :
    dirtyIdx prev curr s (k+1) = dirtyIdx prev curr s k ++
      (if pairIsDirty prev curr (8*(s+k)) = true then [2*s + 2*k] else []) := by
  unfold dirtyIdx
  rw [List.range_succ, List.filter_append, List.map_append]
  congr 1
  by_cases hd : pairIsDirty prev curr (8*(s+k)) = true
  · simp [List.filter_cons, hd]
  · simp [List.filter_cons, hd]

theorem accPayload_length (prev curr : List Nat) (s : Nat) :
    ∀ k, (accPayload prev curr s k).length = 6 * (dirtyIdx prev curr s k).length := by
  intro k
  induction k with
  | zero => rfl
  | succ k ih =>
    rw [dirtyIdx_succ]
    simp only [accPayload]
    by_cases hd : pairIsDirty prev curr (8*(s+k)) = true
    · rw [if_pos hd, if_pos hd, List.length_append, List.length_append, ih]
      have hpp : (pairPayload curr (8*(s+k))).length = 6 := rfl
      simp only [List.length_cons, List.length_nil]
      omega
    · rw [if_neg hd, if_neg hd, List.length_append, ih]
      simp only [List.length_nil]
      omega

/-- Positional payload correspondence: the `r`-th 6-byte block of the
accumulated payload is the payload of the `r`-th dirty pair. -/
theorem accPayload_getD (prev curr : List Nat) (s : Nat) :
    ∀ k r t, r < (dirtyIdx prev curr s k).length → t < 6 →
      (accPayload prev curr s k).getD (6*r + t) 0 =
        (pairPayload curr (((dirtyIdx prev curr s k).getD r 0) * 4)).getD t 0 := by
  intro k
  induction k with
  | zero =>
    intro r t hr _
    simp [dirtyIdx] at hr
  | succ k ih =>
    intro r t hr ht
    have hacc := accPayload_length prev curr s k
    by_cases hd : pairIsDirty prev curr (8*(s+k)) = true
    · have hpl : accPayload prev curr s (k+1) =
          accPayload prev curr s k ++ pairPayload curr (8*(s+k)) := by
        simp only [accPayload]
        rw [if_pos hd]
      have hix : dirtyIdx prev curr s (k+1) =
          dirtyIdx prev curr s k ++ [2*s + 2*k] := by
        rw [dirtyIdx_succ, if_pos hd]
      rw [hpl, hix]
      by_cases hrk : r < (dirtyIdx prev curr s k).length
      · rw [List.getD_append (accPayload prev curr s k) _ 0 (6*r+t) (by omega)]
        rw [List.getD_append (dirtyIdx prev curr s k) _ 0 r hrk]
        exact ih r t hrk ht
      · have hre : r = (dirtyIdx prev curr s k).length := by
          rw [hix, List.length_append, List.length_cons, List.length_nil] at hr
          omega
        subst hre
        rw [List.getD_append_right (accPayload prev curr s k) _ 0 _ (by omega)]
        rw [List.getD_append_right (dirtyIdx prev curr s k) _ 0 _ (by omega)]
        rw [show 6 * (dirtyIdx prev curr s k).length + t -
              (accPayload prev curr s k).length = t from by omega]
        rw [Nat.sub_self]
        rw [show ([2*s + 2*k] : List Nat).getD 0 0 = 2*s + 2*k from rfl]
        rw [show (2*s + 2*k) * 4 = 8*(s+k) from by omega]
    · have hpl : accPayload prev curr s (k+1) = accPayload prev curr s k := by
        simp only [accPayload]
        rw [if_neg hd]
      have hix : dirtyIdx prev curr s (k+1) = dirtyIdx prev curr s k := by
        rw [dirtyIdx_succ, if_neg hd, List.append_nil]
      rw [hpl, hix]
      rw [hix] at hr
      exact ih r t hr ht

theorem dirtyIdx_mem {prev curr : List Nat} {s k x : Nat} :
    x ∈ dirtyIdx prev curr s k ↔
      ∃ t, t < k ∧ pairIsDirty prev curr (8*(s+t)) = true ∧ x = 2*s + 2*t := by
  simp only [dirtyIdx, List.mem_map, List.mem_filter, List.mem_range]
  constructor
  · rintro ⟨t, ⟨htk, htd⟩, hx⟩
    exact ⟨t, htk, htd, hx.symm⟩
  · rintro ⟨t, htk, htd, hx⟩
    exact ⟨t, ⟨htk, htd⟩, hx.symm⟩

theorem dirtyIdx_pairwise (prev curr : List Nat) (s k : Nat) :
    (dirtyIdx prev curr s k).Pairwise (fun a b => a + 2 ≤ b) := by
  unfold dirtyIdx
  rw [List.pairwise_map]
  refine List.Pairwise.imp ?_ (List.Pairwise.filter _ (List.pairwise_lt_range k))
  intro a b h
  omega

/-! ### What a block of copyPair calls does to the buffer -/

/-- The set of buffer offsets written when applying the recorded pair
indices `idxs`: the six RGB bytes of each recorded pair. -/
def inSlots (idxs : List Nat) (off : Nat) : Prop :=
  ∃ x ∈ idxs, ∃ j, j < 3 ∧ (off = x*4 + j ∨ off = x*4 + 4 + j)

theorem inSlots_nil (off : Nat) : ¬ inSlots [] off := by
  simp [inSlots]

theorem inSlots_cons {x : Nat} {rest : List Nat} {off : Nat} :
    inSlots (x :: rest) off ↔
      (∃ j, j < 3 ∧ (off = x*4 + j ∨ off = x*4 + 4 + j)) ∨ inSlots rest off := by
  simp only [inSlots, List.mem_cons]
  constructor
  · rintro ⟨y, (rfl | hy), hj⟩
    · exact Or.inl hj
    · exact Or.inr ⟨y, hy, hj⟩
  · rintro (hj | ⟨y, hy, hj⟩)
    · exact ⟨x, Or.inl rfl, hj⟩
    · exact ⟨y, Or.inr hy, hj⟩

/-- Main specification of `copyPairs` on a block of ascending pair indices
whose payload bytes sit consecutively in the delta stream: it succeeds,
writes exactly the current frame's RGB values into the recorded slots and
leaves every other byte alone. -/
theorem copyPairs_spec {curr diff : List Nat} :
    ∀ (idxs : List Nat) (c : Nat) (B : List Nat),
      (∀ x ∈ idxs, x*4 + 7 ≤ B.length) →
      c + 6 * idxs.length ≤ diff.length →
      idxs.Pairwise (fun a b => a + 2 ≤ b) →
      (∀ r, r < idxs.length → ∀ t, t < 6 →
        diff.getD (c + (6*r + t)) 0 = (pairPayload curr ((idxs.getD r 0) * 4)).getD t 0) →
      ∃ B', copyPairs B diff idxs c = some B' ∧ B'.length = B.length ∧
        (∀ off, inSlots idxs off → B'.getD off 0 = curr.getD off 0) ∧
        (∀ off, ¬ inSlots idxs off → B'.getD off 0 = B.getD off 0) := by
  intro idxs
  induction idxs with
  | nil =>
    intro c B _ _ _ _
    exact ⟨B, rfl, rfl, fun off hoff => absurd hoff (inSlots_nil off),
      fun _ _ => rfl⟩
  | cons x rest ih =>
    intro c B hW hR hSort hP
    have hWx : x*4 + 7 ≤ B.length := hW x (List.mem_cons_self x rest)
    have hRx : c + 6 ≤ diff.length := by
      simp only [List.length_cons] at hR
      omega
    obtain ⟨B1, hcp⟩ : ∃ B1, copyPair B diff x c = some B1 := by
      unfold copyPair
      rw [if_pos ⟨hWx, hRx⟩]
      exact ⟨_, rfl⟩
    obtain ⟨-, -, hlen1, hwritten, huntouched⟩ := copyPair_anatomy hcp
    obtain ⟨hw0, hw1, hw2, hw3, hw4, hw5⟩ := hwritten
    have hP0 : ∀ t, t < 6 →
        diff.getD (c + t) 0 = (pairPayload curr (x*4)).getD t 0 := by
      intro t ht
      have := hP 0 (by simp) t ht
      rw [show c + (6*0 + t) = c + t from by omega] at this
      rw [show ((x :: rest).getD 0 0) = x from rfl] at this
      exact this
    have hslots : ∀ j, j < 3 →
        B1.getD (x*4+j) 0 = curr.getD (x*4+j) 0 ∧
        B1.getD (x*4+4+j) 0 = curr.getD (x*4+4+j) 0 := by
      intro j hj
      interval_cases j
      · refine ⟨?_, ?_⟩
        · rw [show x*4 + 0 = x*4 from by omega, hw0,
            show c = c + 0 from by omega, hP0 0 (by omega)]
          rfl
        · rw [show x*4 + 4 + 0 = x*4 + 4 from by omega, hw3,
            show c + 3 = c + 3 from rfl, hP0 3 (by omega)]
          rfl
      · refine ⟨?_, ?_⟩
        · rw [hw1, hP0 1 (by omega)]
          rfl
        · rw [show x*4 + 4 + 1 = x*4 + 5 from by omega, hw4, hP0 4 (by omega)]
          rfl
      · refine ⟨?_, ?_⟩
        · rw [hw2, hP0 2 (by omega)]
          rfl
        · rw [show x*4 + 4 + 2 = x*4 + 6 from by omega, hw5, hP0 5 (by omega)]
          rfl
    obtain ⟨hhead, htail⟩ := List.pairwise_cons.mp hSort
    obtain ⟨B', hrun, hlen', hin', hout'⟩ := ih (c+6) B1
      (fun y hy => by have := hW y (List.mem_cons_of_mem x hy); omega)
      (by simp only [List.length_cons] at hR; omega)
      htail
      (by
        intro r hr t ht
        have := hP (r+1) (by simp only [List.length_cons]; omega) t ht
        rw [show c + (6*(r+1) + t) = (c+6) + (6*r + t) from by omega] at this
        rw [show ((x :: rest).getD (r+1) 0) = rest.getD r 0 from
          List.getD_cons_succ] at this
        exact this)
    have hrun2 : copyPairs B diff (x :: rest) c = some B' := by
      simp only [copyPairs]
      rw [hcp]
      exact hrun
    refine ⟨B', hrun2, hlen'.trans hlen1, ?_, ?_⟩
    · intro off hoff
      rcases inSlots_cons.mp hoff with hx | hr
      · obtain ⟨j, hj, hor⟩ := hx
        have hnr : ¬ inSlots rest off := by
          rintro ⟨y, hy, j', hj', hor'⟩
          have hxy : x + 2 ≤ y := hhead y hy
          rcases hor with h1 | h1 <;> rcases hor' with h2 | h2 <;> omega
        rw [hout' off hnr]
        rcases hor with h1 | h1
        · subst h1; exact (hslots j hj).1
        · subst h1; exact (hslots j hj).2
      · exact hin' off hr
    · intro off hoff
      have hnx : ¬ ∃ j, j < 3 ∧ (off = x*4 + j ∨ off = x*4 + 4 + j) := by
        intro hx
        exact hoff (inSlots_cons.mpr (Or.inl hx))
      have hnr : ¬ inSlots rest off := by
        intro hr
        exact hoff (inSlots_cons.mpr (Or.inr hr))
      rw [hout' off hnr]
      apply huntouched
      intro j hj
      push_neg at hnx
      exact hnx j hj

theorem pairIsDirty_eq_false {prev curr : List Nat} {i : Nat}
    (h : ¬ pairIsDirty prev curr i = true) :
    prev.getD i 0 = curr.getD i 0 ∧ prev.getD (i+1) 0 = curr.getD (i+1) 0 ∧
    prev.getD (i+2) 0 = curr.getD (i+2) 0 ∧ prev.getD (i+4) 0 = curr.getD (i+4) 0 ∧
    prev.getD (i+5) 0 = curr.getD (i+5) 0 ∧ prev.getD (i+6) 0 = curr.getD (i+6) 0 := by
  simp only [pairIsDirty, Bool.or_eq_true, decide_eq_true_eq, not_or] at h
  push_neg at h
  tauto

/-- Applying one group's recorded dirty pairs: RGB bytes of the group's
span become the current frame's (dirty pairs by the copied payload, clean
pairs because they already agreed), everything else is untouched. -/
theorem group_apply (prev curr : List Nat) (s K : Nat) (hK : K ≤ 8)
    (B diff : List Nat) (c : Nat)
    (hB : B.length = curr.length)
    (hbound : 8*(s+K) ≤ curr.length)
    (hprev : ∀ off, 8*s ≤ off → B.getD off 0 = prev.getD off 0)
    (hR : c + 6 * (dirtyIdx prev curr s K).length ≤ diff.length)
    (hP : ∀ q, q < (accPayload prev curr s K).length →
        diff.getD (c + q) 0 = (accPayload prev curr s K).getD q 0) :
    ∃ B1, copyPairs B diff (dirtyIdx prev curr s K) c = some B1 ∧
      B1.length = B.length ∧
      (∀ off, 8*s ≤ off → off < 8*(s+K) → off % 4 ≠ 3 →
        B1.getD off 0 = curr.getD off 0) ∧
      (∀ off, off < 8*s ∨ 8*(s+K) ≤ off ∨ off % 4 = 3 →
        B1.getD off 0 = B.getD off 0) := by
  have hacc := accPayload_length prev curr s K
  have hW : ∀ x ∈ dirtyIdx prev curr s K, x*4 + 7 ≤ B.length := by
    intro x hx
    obtain ⟨t, htK, -, rfl⟩ := dirtyIdx_mem.mp hx
    omega
  have hPspec : ∀ r, r < (dirtyIdx prev curr s K).length → ∀ t, t < 6 →
      diff.getD (c + (6*r + t)) 0 =
        (pairPayload curr ((dirtyIdx prev curr s K).getD r 0 * 4)).getD t 0 := by
    intro r hr t ht
    rw [hP (6*r+t) (by omega), accPayload_getD prev curr s K r t hr ht]
  obtain ⟨B1, hrun, hlen, hin, hout⟩ :=
    copyPairs_spec (dirtyIdx prev curr s K) c B hW hR
      (dirtyIdx_pairwise prev curr s K) hPspec
  refine ⟨B1, hrun, hlen, ?_, ?_⟩
  · intro off h1 h2 h3
    obtain ⟨t, htK, hlo, hhi⟩ :
        ∃ t, t < K ∧ 8*(s+t) ≤ off ∧ off < 8*(s+t) + 8 := by
      refine ⟨off / 8 - s, ?_, ?_, ?_⟩ <;> omega
    obtain ⟨e, rfl⟩ : ∃ e, off = 8*(s+t) + e := ⟨off - 8*(s+t), by omega⟩
    have he8 : e < 8 := by omega
    by_cases hd : pairIsDirty prev curr (8*(s+t)) = true
    · apply hin
      refine ⟨2*s + 2*t, dirtyIdx_mem.mpr ⟨t, htK, hd, rfl⟩, ?_⟩
      by_cases helt : e < 3
      · exact ⟨e, helt, Or.inl (by omega)⟩
      · exact ⟨e - 4, by omega, Or.inr (by omega)⟩
    · have hnin : ¬ inSlots (dirtyIdx prev curr s K) (8*(s+t)+e) := by
        rintro ⟨y, hy, j, hj, hor⟩
        obtain ⟨t', ht'K, hd', rfl⟩ := dirtyIdx_mem.mp hy
        have ht't : t' = t := by rcases hor with h | h <;> omega
        subst ht't
        exact hd hd'
      rw [hout _ hnin, hprev _ (by omega)]
      obtain ⟨e0, e1, e2, e4, e5, e6⟩ := pairIsDirty_eq_false hd
      interval_cases e
      · simpa using e0
      · exact e1
      · exact e2
      · omega
      · exact e4
      · exact e5
      · exact e6
      · omega
  · intro off hcase
    apply hout
    rintro ⟨y, hy, j, hj, hor⟩
    obtain ⟨t', ht'K, -, rfl⟩ := dirtyIdx_mem.mp hy
    rcases hcase with h | h | h <;> rcases hor with h2 | h2 <;> omega

theorem getD_append_off {g rest : List Nat} (c : Nat) :
    (g ++ rest).getD (g.length + c) 0 = rest.getD c 0 := by
  rw [List.getD_append_right g rest 0 (g.length + c) (by omega)]
  congr 1
  omega

theorem copyPair_shift {g rest B : List Nat} {x c : Nat} :
    copyPair B (g ++ rest) x (g.length + c) = copyPair B rest x c := by
  unfold copyPair
  by_cases hc : x*4 + 7 ≤ B.length ∧ c + 6 ≤ rest.length
  · rw [if_pos ⟨hc.1, by simp only [List.length_append]; omega⟩, if_pos hc]
    simp only [Nat.add_assoc]
    rw [getD_append_off, getD_append_off, getD_append_off, getD_append_off,
        getD_append_off, getD_append_off]
  · rw [if_neg (by simp only [List.length_append]; omega), if_neg hc]

theorem copyPairs_shift {g rest : List Nat} :
    ∀ (idxs : List Nat) (c : Nat) (B : List Nat),
      copyPairs B (g ++ rest) idxs (g.length + c) = copyPairs B rest idxs c := by
  intro idxs
  induction idxs with
  | nil => intro c B; rfl
  | cons x r ih =>
    intro c B
    simp only [copyPairs]
    rw [copyPair_shift]
    cases hcp : copyPair B rest x c with
    | none => rfl
    | some B2 =>
      rw [show g.length + c + 6 = g.length + (c + 6) from by omega]
      exact ih (c+6) B2

/-- Once the loop's cursor has passed an initial segment of the stream, the
rest of the run only depends on the remaining bytes. -/
theorem copy_onto_loop_skip {g rest : List Nat} :
    ∀ (fuel : Nat) (B : List Nat) (j p : Nat),
      rest.length ≤ j + fuel →
      copy_onto_loop (g ++ rest) B fuel (g.length + j) p =
        copy_onto_loop rest B fuel j p := by
  intro fuel
  induction fuel with
  | zero =>
    intro B j p hf
    have h1 : ¬ (g.length + j < (g ++ rest).length) := by
      simp only [List.length_append]; omega
    have h2 : ¬ (j < rest.length) := by omega
    rw [copy_onto_loop_exit h1 0, copy_onto_loop_exit h2 0]
  | succ f ih =>
    intro B j p hf
    by_cases hj : j < rest.length
    · have hj' : g.length + j < (g ++ rest).length := by
        simp only [List.length_append]; omega
      simp only [copy_onto_loop, if_pos hj, if_pos hj']
      rw [getD_append_off j]
      simp only [Nat.add_assoc]
      rw [copyPairs_shift]
      cases hcp : copyPairs B rest
          (headerIndices (rest.getD j 0) p) (j + 1) with
      | none => rfl
      | some B2 => exact ih B2 _ _ (by omega)
    · have h1 : ¬ (g.length + j < (g ++ rest).length) := by
        simp only [List.length_append]; omega
      rw [copy_onto_loop_exit h1 (f+1), copy_onto_loop_exit hj (f+1)]

/-- Main decode/encode correspondence: running the decoder loop on the
stream the encoder still emits from group-state `(s, k)` turns, on a buffer
that agrees with `prev` from the group start onwards, every RGB byte of the
remaining span into `curr`'s and touches nothing else. -/
theorem decode_encodeRest (prev curr : List Nat) :
    ∀ (m s k : Nat) (B : List Nat) (fuel : Nat),
      k < 8 →
      8*(s+k) + 8*m ≤ curr.length →
      B.length = curr.length →
      (∀ off, 8*s ≤ off → B.getD off 0 = prev.getD off 0) →
      (encodeRest prev curr m (8*(s+k)) k (accHeader prev curr s k)
        (accPayload prev curr s k)).length ≤ fuel →
      ∃ B', copy_onto_loop
          (encodeRest prev curr m (8*(s+k)) k (accHeader prev curr s k)
            (accPayload prev curr s k)) B fuel 0 (2*s) = some B' ∧
        B'.length = B.length ∧
        (∀ off, 8*s ≤ off → off < 8*(s+k) + 8*m → off % 4 ≠ 3 →
          B'.getD off 0 = curr.getD off 0) ∧
        (∀ off, off < 8*s ∨ 8*(s+k) + 8*m ≤ off ∨ off % 4 = 3 →
          B'.getD off 0 = B.getD off 0) := by
  intro m
  induction m with
  | zero =>
    intro s k B fuel hk hbound hB hprev hfuel
    simp only [encodeRest] at hfuel ⊢
    have hacc := accPayload_length prev curr s k
    have hlen1 : (accHeader prev curr s k :: accPayload prev curr s k).length =
        1 + 6 * (dirtyIdx prev curr s k).length := by
      rw [List.length_cons]
      omega
    obtain ⟨f, rfl⟩ : ∃ f, fuel = f + 1 := ⟨fuel - 1, by
      rw [hlen1] at hfuel; omega⟩
    simp only [copy_onto_loop, Nat.zero_add]
    rw [if_pos (by simp : 0 < (accHeader prev curr s k ::
      accPayload prev curr s k).length)]
    rw [List.getD_cons_zero, headerIndices_accHeader prev curr s k (by omega)]
    obtain ⟨B1, hrun, hlenB1, hinB1, houtB1⟩ :=
      group_apply prev curr s k (by omega) B
        (accHeader prev curr s k :: accPayload prev curr s k) 1 hB
        (by omega) hprev
        (by omega)
        (by
          intro q hq
          rw [show (1 : Nat) + q = q + 1 from by omega, List.getD_cons_succ])
    rw [hrun]
    refine ⟨B1, ?_, hlenB1, ?_, ?_⟩
    · show copy_onto_loop (accHeader prev curr s k :: accPayload prev curr s k) B1 f
        (1 + 6 * (dirtyIdx prev curr s k).length) (2*s + 16) = some B1
      exact copy_onto_loop_exit (by omega) f
    · intro off h1 h2 h3
      exact hinB1 off h1 (by omega) h3
    · intro off hcase
      exact houtB1 off (by omega)
  | succ n ih =>
    intro s k B fuel hk hbound hB hprev hfuel
    simp only [encodeRest] at hfuel ⊢
    have hh2 : (if pairIsDirty prev curr (8*(s+k)) = true
        then accHeader prev curr s k ||| 128 >>> (k % 8)
        else accHeader prev curr s k) = accHeader prev curr s (k+1) := rfl
    have ht2 : (if pairIsDirty prev curr (8*(s+k)) = true
        then accPayload prev curr s k ++ pairPayload curr (8*(s+k))
        else accPayload prev curr s k) = accPayload prev curr s (k+1) := rfl
    rw [hh2, ht2] at hfuel ⊢
    by_cases hk8 : k + 1 = 8
    · -- the group is flushed, then the loop continues on the next group
      rw [if_pos hk8] at hfuel ⊢
      have hrw : encodeRest prev curr n (8*(s+k)+8) 0 0 [] =
          encodeRest prev curr n (8*((s+(k+1))+0)) 0
            (accHeader prev curr (s+(k+1)) 0) (accPayload prev curr (s+(k+1)) 0) := by
        rw [show 8*(s+k)+8 = 8*((s+(k+1))+0) from by omega]
        rfl
      rw [hrw] at hfuel ⊢
      have hacc := accPayload_length prev curr s (k+1)
      have hglen : (accHeader prev curr s (k+1) ::
          accPayload prev curr s (k+1)).length =
          1 + 6 * (dirtyIdx prev curr s (k+1)).length := by
        rw [List.length_cons]
        omega
      rw [List.cons_append] at hfuel ⊢
      obtain ⟨f, rfl⟩ : ∃ f, fuel = f + 1 := ⟨fuel - 1, by
        rw [List.length_cons] at hfuel; omega⟩
      simp only [copy_onto_loop, Nat.zero_add]
      rw [if_pos (by simp : 0 < (accHeader prev curr s (k+1) ::
        (accPayload prev curr s (k+1) ++
          encodeRest prev curr n (8*((s+(k+1))+0)) 0
            (accHeader prev curr (s+(k+1)) 0)
            (accPayload prev curr (s+(k+1)) 0))).length)]
      rw [List.getD_cons_zero, headerIndices_accHeader prev curr s (k+1) (by omega)]
      obtain ⟨B1, hrun, hlenB1, hinB1, houtB1⟩ :=
        group_apply prev curr s (k+1) (by omega) B
          (accHeader prev curr s (k+1) ::
            (accPayload prev curr s (k+1) ++
              encodeRest prev curr n (8*((s+(k+1))+0)) 0
                (accHeader prev curr (s+(k+1)) 0)
                (accPayload prev curr (s+(k+1)) 0))) 1 hB
          (by omega) hprev
          (by
            rw [List.length_cons, List.length_append]
            omega)
          (by
            intro q hq
            rw [show (1 : Nat) + q = q + 1 from by omega, List.getD_cons_succ,
              List.getD_append _ _ _ _ (by omega)])
      rw [hrun]
      obtain ⟨B'', hrun'', hlen'', hin'', hout''⟩ :=
        ih (s+(k+1)) 0 B1 f (by omega) (by omega)
          (hlenB1.trans hB)
          (by
            intro off hoff
            rw [houtB1 off (by omega)]
            exact hprev off (by omega))
          (by
            simp only [List.length_cons, List.length_append] at hfuel
            omega)
      refine ⟨B'', ?_, hlen''.trans hlenB1, ?_, ?_⟩
      · show copy_onto_loop
            (accHeader prev curr s (k+1) :: (accPayload prev curr s (k+1) ++
              encodeRest prev curr n (8*((s+(k+1))+0)) 0
                (accHeader prev curr (s+(k+1)) 0)
                (accPayload prev curr (s+(k+1)) 0)))
            B1 f (1 + 6 * (dirtyIdx prev curr s (k+1)).length) (2*s + 16) = some B''
        rw [← List.cons_append]
        rw [show (1 : Nat) + 6 * (dirtyIdx prev curr s (k+1)).length =
              (accHeader prev curr s (k+1) :: accPayload prev curr s (k+1)).length + 0
            from by omega]
        rw [copy_onto_loop_skip f B1 0 (2*s + 16) (by
          simp only [List.length_cons, List.length_append] at hfuel
          omega)]
        rw [show 2*s + 16 = 2*(s+(k+1)) from by omega]
        exact hrun''
      · intro off h1 h2 h3
        by_cases hsplit : off < 8*(s+(k+1))
        · rw [hout'' off (by omega)]
          exact hinB1 off h1 (by omega) h3
        · exact hin'' off (by omega) (by omega) h3
      · intro off hcase
        rw [hout'' off (by omega)]
        exact houtB1 off (by omega)
    · -- the group is still being accumulated
      rw [if_neg hk8] at hfuel ⊢
      rw [show 8*(s+k)+8 = 8*(s+(k+1)) from by omega] at hfuel ⊢
      obtain ⟨B', hrun, hlen', hin', hout'⟩ :=
        ih s (k+1) B fuel (by omega) (by omega) hB hprev hfuel
      refine ⟨B', hrun, hlen', ?_, ?_⟩
      · intro off h1 h2 h3
        exact hin' off h1 (by omega) h3
      · intro off hcase
        exact hout' off (by omega)

/-- Round-trip of the delta stage alone, shared by the C1 and C6 wrappers:
encoding `(P, C)` succeeds and applying the stream onto a copy of `P`
reproduces `C`'s RGB bytes exactly while preserving all alpha bytes. -/
theorem roundtrip_core (P C : List Nat) (h1 : P.length = C.length)
    (h2 : P.length % 8 = 0) :
    ∃ delta B', diff_byte_header P C = some delta ∧
      diff_byte_header_copy_onto P delta = some B' ∧
      B'.length = P.length ∧
      (∀ off, off < P.length → off % 4 ≠ 3 → B'.getD off 0 = C.getD off 0) ∧
      (∀ off, off % 4 = 3 ∨ P.length ≤ off → B'.getD off 0 = P.getD off 0) := by
  have henc : diff_byte_header P C =
      some (encodeRest P C (P.length / 8) 0 0 0 []) := by
    unfold diff_byte_header
    rw [diff_byte_header_loop_eq _ _ _ _ _ _ (by omega), List.nil_append]
  have hshape : encodeRest P C (P.length / 8) 0 0 0 [] =
      encodeRest P C (P.length / 8) (8*(0+0)) 0
        (accHeader P C 0 0) (accPayload P C 0 0) := rfl
  obtain ⟨B', hrun, hlen, hin, hout⟩ :=
    decode_encodeRest P C (P.length / 8) 0 0 P
      (encodeRest P C (P.length / 8) (8*(0+0)) 0
        (accHeader P C 0 0) (accPayload P C 0 0)).length
      (by omega) (by omega) h1 (fun off _ => rfl) (le_refl _)
  refine ⟨encodeRest P C (P.length / 8) 0 0 0 [], B', henc, ?_, hlen, ?_, ?_⟩
  · unfold diff_byte_header_copy_onto
    rw [hshape]
    exact hrun
  · intro off hoff h4
    exact hin off (by omega) (by omega) h4
  · intro off hcase
    exact hout off (by omega)

/-- Claim C1: for equal-length pair-aligned buffers `P` and `C`, applying
the delta stream produced by the encoder from `(P, C)` onto a buffer that
initially holds a copy of `P` makes every byte at an offset not congruent
to 3 mod 4 equal the corresponding byte of `C`, while every byte at an
offset congruent to 3 mod 4 (and every byte beyond the frame) keeps the
value it had before the apply call. -/
theorem C1_delta_roundtrip (P C : List Nat) (h1 : P.length = C.length)
    (h2 : P.length % 8 = 0) :
    ∃ delta B', diff_byte_header P C = some delta ∧
      diff_byte_header_copy_onto P delta = some B' ∧
      B'.length = P.length ∧
      (∀ off, off < P.length → off % 4 ≠ 3 → B'.getD off 0 = C.getD off 0) ∧
      (∀ off, off % 4 = 3 ∨ P.length ≤ off → B'.getD off 0 = P.getD off 0) :=
  roundtrip_core P C h1 h2

/-- Concrete instantiation of C1 on the frame pair of the repository's own
test. -/
theorem C1_witness :
    ([1,2,3,4,5,6,7,8] : List Nat).length = ([1,2,3,4,8,7,6,5] : List Nat).length ∧
    ([1,2,3,4,5,6,7,8] : List Nat).length % 8 = 0 ∧
    ∃ delta B', diff_byte_header [1,2,3,4,5,6,7,8] [1,2,3,4,8,7,6,5] = some delta ∧
      diff_byte_header_copy_onto [1,2,3,4,5,6,7,8] delta = some B' ∧
      B'.length = ([1,2,3,4,5,6,7,8] : List Nat).length ∧
      (∀ off, off < ([1,2,3,4,5,6,7,8] : List Nat).length → off % 4 ≠ 3 →
        B'.getD off 0 = ([1,2,3,4,8,7,6,5] : List Nat).getD off 0) ∧
      (∀ off, off % 4 = 3 ∨ ([1,2,3,4,5,6,7,8] : List Nat).length ≤ off →
        B'.getD off 0 = ([1,2,3,4,5,6,7,8] : List Nat).getD off 0) :=
  ⟨rfl, by decide, C1_delta_roundtrip [1,2,3,4,5,6,7,8] [1,2,3,4,8,7,6,5] rfl (by decide)⟩

/-! ### The entropy stage round-trips -/

theorem decompress_compress (b : List Nat) (h : b.length < 4294967296) :
    decompress_size_prepended (compress_prepend_size b) = Except.ok b := by
  have hlen4 : (natToLE4 b.length).length = 4 := rfl
  have htake : (compress_prepend_size b).take 4 = natToLE4 b.length := by
    unfold compress_prepend_size
    rw [← hlen4, List.take_left]
  have hdrop : (compress_prepend_size b).drop 4 = b := by
    unfold compress_prepend_size
    rw [← hlen4, List.drop_left]
  have hcomplen : (compress_prepend_size b).length = 4 + b.length := by
    unfold compress_prepend_size
    rw [List.length_append, hlen4]
  have hid : leToNat4 (natToLE4 b.length) = b.length := by
    unfold leToNat4 natToLE4
    simp only [List.getD_cons_zero, List.getD_cons_succ]
    omega
  unfold decompress_size_prepended
  rw [if_neg (by omega)]
  simp only [htake, hdrop, hid]
  simp

/-- Claim C6: the full facade round trip — encode the delta of `(P, C)`,
wrap it with the size-prefixed entropy stage, then decompress and apply the
result onto a copy of `P` — reproduces `C`'s RGB bytes exactly (alpha bytes
and bytes beyond the frame unchanged).  The frame-size bound keeps the
4-byte little-endian size prefix exact. -/
theorem C6_facade_roundtrip (P C : List Nat) (h1 : P.length = C.length)
    (h2 : P.length % 8 = 0) (h3 : P.length < 2147483648) :
    ∃ z B', mixed_comp P C = some z ∧ mixed_decomp P z = some B' ∧
      B'.length = P.length ∧
      (∀ off, off < P.length → off % 4 ≠ 3 → B'.getD off 0 = C.getD off 0) ∧
      (∀ off, off % 4 = 3 ∨ P.length ≤ off → B'.getD off 0 = P.getD off 0) := by
  obtain ⟨delta, B', henc, happly, hlen, hin, hout⟩ := roundtrip_core P C h1 h2
  have henc2 : diff_byte_header P C =
      some (encodeRest P C (P.length / 8) 0 0 0 []) := by
    unfold diff_byte_header
    rw [diff_byte_header_loop_eq _ _ _ _ _ _ (by omega), List.nil_append]
  have hdelta : delta = encodeRest P C (P.length/8) 0 0 0 [] :=
    Option.some.inj (henc.symm.trans henc2)
  have hb := @encodeRest_length P C (P.length/8) 0 0 0 [] (by omega)
  have hnil : ([] : List Nat).length = 0 := rfl
  have hdc : dcFrom P C 0 (P.length/8) ≤ P.length/8 := by
    unfold dcFrom
    calc ((List.range (P.length/8)).filter fun r =>
            pairIsDirty P C (0 + 8*r)).length
        ≤ (List.range (P.length/8)).length := List.length_filter_le _ _
      _ = P.length/8 := List.length_range _
  have hsize : delta.length < 4294967296 := by
    rw [hdelta]
    omega
  refine ⟨compress_prepend_size delta, B', ?_, ?_, hlen, hin, hout⟩
  · unfold mixed_comp
    rw [henc]
  · unfold mixed_decomp
    rw [decompress_compress delta hsize]
    exact happly

/-- Concrete instantiation of C6 on the frame pair of the repository's own
test. -/
theorem C6_witness :
    ([1,2,3,4,5,6,7,8] : List Nat).length % 8 = 0 ∧
    ∃ z B', mixed_comp [1,2,3,4,5,6,7,8] [1,2,3,4,8,7,6,5] = some z ∧
      mixed_decomp [1,2,3,4,5,6,7,8] z = some B' ∧
      B'.length = ([1,2,3,4,5,6,7,8] : List Nat).length ∧
      (∀ off, off < ([1,2,3,4,5,6,7,8] : List Nat).length → off % 4 ≠ 3 →
        B'.getD off 0 = ([1,2,3,4,8,7,6,5] : List Nat).getD off 0) ∧
      (∀ off, off % 4 = 3 ∨ ([1,2,3,4,5,6,7,8] : List Nat).length ≤ off →
        B'.getD off 0 = ([1,2,3,4,5,6,7,8] : List Nat).getD off 0) :=
  ⟨by decide,
   C6_facade_roundtrip [1,2,3,4,5,6,7,8] [1,2,3,4,8,7,6,5] rfl (by decide) (by decide)⟩

/-! ### Simple evaluation facts -/

/-- Claim C8: on `P = [1,2,3,4,5,6,7,8]` and `C = [1,2,3,4,8,7,6,5]` the
encoder produces exactly `[0x80, 1, 2, 3, 8, 7, 6]`: one header byte with
only the most-significant bit set, followed by the current frame's two
pixels' RGB payload. -/
theorem C8_single_pair_change :
    diff_byte_header [1,2,3,4,5,6,7,8] [1,2,3,4,8,7,6,5] = some [128,1,2,3,8,7,6] := by
  decide

/-- Claim C9: on empty input buffers the encoder returns the one-byte stream
`[0x00]` (the unconditional final flush), not an empty stream. -/
theorem C9_empty_input :
    diff_byte_header ([] : List Nat) ([] : List Nat) = some [0] := by
  decide

/-- Claim C3 (code bug): on the malformed delta stream `[0x80]` — whose
header flags pair 0 as dirty but which carries no payload bytes — the apply
operation does not return a recoverable error; it performs an out-of-range
payload read, i.e. the Rust code panics on the slice index (`none` in this
model), contradicting the spec's requirement of a recoverable decode
error. -/
theorem C3_malformed_delta_panics :
    diff_byte_header_copy_onto (List.replicate 8 0) [128] = none := by
  decide

/-- Claim C4 (code bug): on the corrupt compressed input `[]` (no size
prefix) `mixed_decomp` does not return a recoverable error: the Rust source
calls `.unwrap()` on the decompression result, which panics (`none` in this
model), contradicting the spec's requirement that the error be surfaced. -/
theorem C4_mixed_decomp_panics :
    mixed_decomp (List.replicate 8 0) [] = none := by
  decide

/-- Claim C2, counterexample: for `P = C` of 64 bytes (8 pixel pairs, evenly
divisible by 8) the encoder output is two header bytes, not
`ceil(8/8) = 1`: an extra empty trailing group IS appended after the last
full group. -/
theorem C2_counterexample :
    diff_byte_header (List.replicate 64 0) (List.replicate 64 0) = some [0, 0] ∧
    (2 : Nat) ≠ ((List.replicate 64 (0:Nat)).length / 8 + 7) / 8 := by
  constructor
  · decide
  · decide

/-- Claim C5, counterexample: the encoder does not reject mismatched
geometry.  On two equal buffers of length 10 (not pair-aligned) it silently
encodes only the single complete pair and returns normally, and on buffers
of different lengths 8 and 16 it also returns normally. -/
theorem C5_counterexample :
    diff_byte_header (List.replicate 10 0) (List.replicate 10 0) = some [0] ∧
    diff_byte_header (List.replicate 8 0) (List.replicate 16 0) = some [0] := by
  constructor
  · decide
  · decide

end CompDecomp
